import Mathlib

/-!
Verification of the Parliament-Speech-Analyzer analytics core.

This file gives a shallow embedding, in Lean 4, of the pluggable analytics
framework of the repository (cache manager, analyzer registry, orchestrator)
and of its two anchor numerical algorithms (semantic topic assignment and
centroid-distance conformity scoring), together with theorems settling the
frozen specification claims about them.

Embedding conventions:
* Python dicts are insertion-ordered association lists (`List (κ × α)`);
  dict assignment is `aset` (replace in place, append if fresh), deletion is
  `adel`, lookup is `alookup`.
* JSON-serializable analyzer results are `JValue` (rationals stand in for
  numeric scalars).
* A persisted cache file is `Option JValue`: `some v` when the file parses,
  `none` when it is corrupt/unparseable.  The file tree is `FileSys`, a map
  from source name to that source's directory, mirroring
  `{base_dir}/analyzers/{source}/`.
* A Python computation that can raise is `Except String` (the error carries
  `str(e)`); `Option` models Python `None` results.
* Machine reals (floats) are idealized as `ℝ`; `float('inf')` distances are
  `Option ℝ` with `none` for infinity, matching the IEEE identities actually
  used by the code (`1/(1+inf) = 0`).  Python `round(x, 4)` is idealized as
  rounding to the nearest multiple of `1/10000` (`round4`).
* Wall-clock cache timestamps are not modelled (nothing in the code reads
  them back).
-/

namespace PSA

/-- JSON-style values: the shape of analyzer results and cache entries. -/
inductive JValue where
  | null : JValue
  | bool (b : Bool) : JValue
  | num (q : ℚ) : JValue
  | str (s : String) : JValue
  | arr (elts : List JValue) : JValue
  | obj (fields : List (String × JValue)) : JValue

/-- Lookup in an insertion-ordered association list (Python `d[k]` / `d.get(k)`). -/
def alookup {κ α : Type} [DecidableEq κ] (k : κ) : List (κ × α) → Option α
  | [] => none
  | (k', v) :: rest => if k' = k then some v else alookup k rest

/-- Dict assignment `d[k] = v`: replaces the value in place when the key is
present (keeping its position, as Python dicts do), appends otherwise. -/
def aset {κ α : Type} [DecidableEq κ] (k : κ) (v : α) : List (κ × α) → List (κ × α)
  | [] => [(k, v)]
  | (k', v') :: rest => if k' = k then (k, v) :: rest else (k', v') :: aset k v rest

/-- Dict deletion `del d[k]` / `d.pop(k, None)`: removes every entry with key `k`
(at most one in a well-formed dict). -/
def adel {κ α : Type} [DecidableEq κ] (k : κ) : List (κ × α) → List (κ × α)
  | [] => []
  | (k', v') :: rest => if k' = k then adel k rest else (k', v') :: adel k rest

/-- Keys of an association list. -/
def akeys {κ α : Type} (l : List (κ × α)) : List κ := l.map Prod.fst

theorem alookup_aset_self {κ α : Type} [DecidableEq κ] (k : κ) (v : α)
    (l : List (κ × α)) : alookup k (aset k v l) = some v := by
  induction l with
  | nil => simp [aset, alookup]
  | cons h t ih =>
    by_cases hk : h.1 = k
    · simp [aset, hk, alookup]
    · simp [aset, hk, alookup, ih]

theorem alookup_aset_ne {κ α : Type} [DecidableEq κ] {k k' : κ} (v : α)
    (l : List (κ × α)) (h : k' ≠ k) :
    alookup k (aset k' v l) = alookup k l := by
  induction l with
  | nil => simp [aset, alookup, h]
  | cons hd t ih =>
    by_cases hk : hd.1 = k'
    · simp [aset, hk, alookup, h, hk ▸ h]
    · by_cases hk2 : hd.1 = k
      · simp [aset, hk, alookup, hk2, Ne.symm h]
      · simp [aset, hk, alookup, hk2, ih]

/-- Folding `adel` over a list of keys (Python `for k in keys: del d[k]`)
removes exactly the entries whose key is in the list. -/
theorem foldl_adel_eq_filter {κ α : Type} [DecidableEq κ]
    (keys : List κ) (m : List (κ × α)) :
    keys.foldl (fun acc k => adel k acc) m
      = m.filter (fun kv => decide (kv.1 ∉ keys)) := by
  induction keys generalizing m with
  | nil => simp
  | cons k ks ih =>
    have hdel : ∀ (m : List (κ × α)),
        adel k m = m.filter (fun kv => decide (kv.1 ≠ k)) := by
      intro m
      induction m with
      | nil => rfl
      | cons hd t iht =>
        by_cases hk : hd.1 = k
        · simp [adel, hk, iht]
        · simp [adel, hk, iht]
    rw [List.foldl_cons, ih, hdel, List.filter_filter]
    apply List.filter_congr
    intro kv _
    by_cases h1 : kv.1 = k <;> by_cases h2 : kv.1 ∈ ks <;> simp [h1, h2]

/-- Was `p` (as a character list) found leading `s`? -/
def leadsWith : List Char → List Char → Bool
  | [], _ => true
  | _ :: _, [] => false
  | a :: p, b :: s => (a == b) && leadsWith p s

/-- Substring test on character lists (Python `p in s` for strings). -/
def hasSub (p : List Char) : List Char → Bool
  | [] => leadsWith p []
  | b :: s => leadsWith p (b :: s) || hasSub p s

/-- Python `pattern in key` on strings. -/
def containsSub (pat s : String) : Bool := hasSub pat.toList s.toList

/-- Shell-style glob matching as used by `pathlib.Path.glob` on one path
component: `*` matches any run of characters, `?` any single character, other
characters literally.  (fnmatch character classes `[...]` are idealized as
literal characters; no cache key sanitized by this code produces them.) -/
def globMatch : List Char → List Char → Bool
  | [], [] => true
  | [], _ :: _ => false
  | '*' :: p', [] => globMatch p' []
  | '*' :: p', b :: s' => globMatch p' (b :: s') || globMatch ('*' :: p') s'
  | '?' :: _, [] => false
  | '?' :: p', _ :: s' => globMatch p' s'
  | _ :: _, [] => false
  | c :: p', b :: s' => (c == b) && globMatch p' s'
termination_by p s => (s.length, p.length)

/-- Does the persisted file named `fname` match `Path.glob` run on the pattern
string built by `CacheManager.invalidate`, namely the glob expression made of
a star, then `pattern`, then a star and the literal text ".json"?  A `/` in
`pattern` makes `Path.glob` descend into subdirectories; the flat per-source
cache directory contains none, so no file matches then. -/
def diskGlobMatches (pattern fname : String) : Bool :=
  if pattern.toList.contains '/' then false
  else globMatch ("*" ++ pattern ++ "*.json").toList fname.toList

/-- Content of one persisted cache file: `some v` when the file parses as
JSON, `none` when it is corrupt/unparseable. -/
abbrev DiskFile := Option JValue

/-- The persisted files of one source's cache directory: filename to content. -/
abbrev SourceDir := List (String × DiskFile)

/-- The persisted cache file tree, one directory per data-source name,
mirroring the layout rooted at the base directory, under `analyzers/{source}`. -/
structure FileSys where
  dirs : List (String × SourceDir)

/-- Files of one source's directory (a directory that was never written is
empty). -/
def dirOf (fs : FileSys) (source : String) : SourceDir :=
  (alookup source fs.dirs).getD []

/-- Replace one source's directory contents. -/
def updateDir (fs : FileSys) (source : String) (f : SourceDir → SourceDir) :
    FileSys :=
  ⟨aset source (f (dirOf fs source)) fs.dirs⟩

theorem dirOf_updateDir_self (fs : FileSys) (source : String)
    (f : SourceDir → SourceDir) :
    dirOf (updateDir fs source f) source = f (dirOf fs source) := by
  simp [dirOf, updateDir, alookup_aset_self]

theorem dirOf_updateDir_ne (fs : FileSys) {source s : String}
    (f : SourceDir → SourceDir) (h : s ≠ source) :
    dirOf (updateDir fs source f) s = dirOf fs s := by
  simp [dirOf, updateDir, alookup_aset_ne _ _ (Ne.symm h)]

/-- Metadata sidecar entry kept by the cache per key (the wall-clock
timestamp is not modelled). -/
structure CacheMeta where
  version : Option String

/-- In-process state of `CacheManager` (cache.py): source name, the persist
flag, the in-memory cache and the per-key metadata dict. -/
structure CacheManager where
  source : String
  persist : Bool
  memory : List (String × JValue)
  metadata : List (String × CacheMeta)

/-- One character of the key sanitization of `_get_path`: the two path
separator characters become underscores (the code chains two
single-character `str.replace` calls, which is this map applied
characterwise). -/
def sanitizeChar (c : Char) : Char := if c = '/' ∨ c = '\\' then '_' else c

/-- Sanitized filename for a cache key (`_get_path`): path separators are
replaced by underscores and the `.json` extension is appended. -/
def fileName (key : String) : String :=
  String.mk (key.toList.map sanitizeChar) ++ ".json"

/-- CacheManager.has: true when the key resolves in memory or, with
persistence enabled, a file for it exists on disk. -/
def CacheManager.has (mgr : CacheManager) (fs : FileSys) (key : String) : Bool :=
  (alookup key mgr.memory).isSome
    || (mgr.persist && (alookup (fileName key) (dirOf fs mgr.source)).isSome)

/-- CacheManager.get: memory first; then, with persistence enabled, the disk
file — a parse failure is logged and treated as a miss (`none`); a disk hit
is promoted into memory.  Returns the value (or `none`) and the updated
manager state. -/
def CacheManager.get (mgr : CacheManager) (fs : FileSys) (key : String) :
    Option JValue × CacheManager :=
  match alookup key mgr.memory with
  | some v => (some v, mgr)
  | none =>
    if mgr.persist then
      match alookup (fileName key) (dirOf fs mgr.source) with
      | some (some v) => (some v, { mgr with memory := aset key v mgr.memory })
      | some none => (none, mgr)
      | none => (none, mgr)
    else (none, mgr)

/-- CacheManager.set: writes to memory and metadata unconditionally and, when
persistence applies (instance flag or per-call override), serializes the
value to the source-scoped file for the key.  A `JValue` always serializes,
so the swallowed-write-failure branch of the code is unreachable here. -/
def CacheManager.set (mgr : CacheManager) (fs : FileSys) (key : String)
    (value : JValue) (version : Option String) (persistOverride : Option Bool) :
    CacheManager × FileSys :=
  let mgr' := { mgr with
    memory := aset key value mgr.memory,
    metadata := aset key ⟨version⟩ mgr.metadata }
  let shouldPersist := persistOverride.getD mgr.persist
  let fs' :=
    if shouldPersist then
      updateDir fs mgr.source (aset (fileName key) (some value))
    else fs
  (mgr', fs')

/-- CacheManager.invalidate: with no pattern, clears all memory entries and
metadata and unlinks every `*.json` file of this source except
`_metadata.json`; with a pattern, removes the memory keys containing the
pattern as a substring (popping their metadata) and unlinks the files of this
source matched by `Path.glob` on a star, the pattern, a star and `.json`,
except `_metadata.json`. -/
def CacheManager.invalidate (mgr : CacheManager) (fs : FileSys)
    (pattern : Option String) : CacheManager × FileSys :=
  match pattern with
  | none =>
    let mgr' := { mgr with memory := [], metadata := [] }
    let fs' :=
      if mgr.persist then
        let files := ((dirOf fs mgr.source).filter
          (fun f => globMatch "*.json".toList f.1.toList)).map Prod.fst
        let files := files.filter (fun n => decide (n ≠ "_metadata.json"))
        updateDir fs mgr.source
          (fun d => files.foldl (fun acc n => adel n acc) d)
      else fs
    (mgr', fs')
  | some p =>
    let keysToRemove :=
      (mgr.memory.filter (fun kv => containsSub p kv.1)).map Prod.fst
    let mgr' := { mgr with
      memory := keysToRemove.foldl (fun acc k => adel k acc) mgr.memory,
      metadata := keysToRemove.foldl (fun acc k => adel k acc) mgr.metadata }
    let fs' :=
      if mgr.persist then
        let files := ((dirOf fs mgr.source).filter
          (fun f => diskGlobMatches p f.1)).map Prod.fst
        let files := files.filter (fun n => decide (n ≠ "_metadata.json"))
        updateDir fs mgr.source
          (fun d => files.foldl (fun acc n => adel n acc) d)
      else fs
    (mgr', fs')

/-- One pluggable computation unit, as the orchestrator sees it after
construction with the shared resources: its registry name, semantic version,
declared dependencies and its `compute()` outcome (`Except.error` models a
raised exception carrying `str(e)`). -/
structure Analyzer where
  name : String
  version : String
  deps : List String
  compute : Except String JValue

/-- The cache key `compute_cached` resolves: the caller-supplied key unless
it is falsy (absent or empty), else the default key made of the unit name,
the text `_v` and the version. -/
def resolveKey (a : Analyzer) (cacheKey : Option String) : String :=
  match cacheKey with
  | some k => if k = "" then a.name ++ "_v" ++ a.version else k
  | none => a.name ++ "_v" ++ a.version

/-- Outcome of one `compute_cached` call: the returned value (`Except.error`
for a propagated exception, `Option` for a possibly-`None` return), whether
`compute()` was actually invoked, and the resulting cache and file state. -/
structure CachedRun where
  result : Except String (Option JValue)
  computed : Bool
  cache : Option CacheManager
  fs : FileSys

/-- BaseAnalyzer.compute_cached: resolves the key; when a cache manager is
attached and `has(key)` holds, returns `get(key)` without computing;
otherwise runs `compute()` and, when a cache manager is attached, stores the
result under the key before returning it. -/
def compute_cached (a : Analyzer) (cache : Option CacheManager) (fs : FileSys)
    (cacheKey : Option String) : CachedRun :=
  let key := resolveKey a cacheKey
  match cache with
  | some mgr =>
    if mgr.has fs key then
      let got := mgr.get fs key
      ⟨.ok got.1, false, some got.2, fs⟩
    else
      match a.compute with
      | .error e => ⟨.error e, true, some mgr, fs⟩
      | .ok r =>
        let stored := mgr.set fs key r none none
        ⟨.ok (some r), true, some stored.1, stored.2⟩
  | none =>
    match a.compute with
    | .error e => ⟨.error e, true, none, fs⟩
    | .ok r => ⟨.ok (some r), true, none, fs⟩

/-- AnalyzerRegistry.register: dict assignment keyed by the unit's `name`
class attribute — an existing entry with the same name is silently
overwritten in place (a warning is logged), a fresh name is appended. -/
def register (reg : List Analyzer) (a : Analyzer) : List Analyzer :=
  if reg.any (fun b => b.name == a.name) then
    reg.map (fun b => if b.name = a.name then a else b)
  else reg ++ [a]

/-- AnalyzerRegistry.get: dict lookup by name (first — in a well-formed
registry, only — entry registered under it). -/
def regGet : List Analyzer → String → Option Analyzer
  | [], _ => none
  | a :: rest, n => if a.name = n then some a else regGet rest n

/-- Per-unit configuration entry: the optional `enabled` flag and the
feature-flag overrides. -/
structure UnitConfig where
  enabled : Option Bool
  features : List (String × Bool)

/-- The nested configuration mapping, keyed by unit name. -/
abbrev Config := List (String × UnitConfig)

/-- BaseAnalyzer.is_enabled: the config entry's `enabled` flag, defaulting to
true when the unit has no entry or the entry has no flag. -/
def is_enabled (name : String) (config : Config) : Bool :=
  match alookup name config with
  | none => true
  | some c => c.enabled.getD true

/-- AnalyzerRegistry.get_enabled: the registry, in registration order,
filtered to the units enabled by the configuration. -/
def get_enabled (reg : List Analyzer) (config : Config) : List Analyzer :=
  reg.filter (fun a => is_enabled a.name config)

/-- The per-unit error marker `{"error": str(e)}` recorded by `run_all` for a
unit whose computation raised. -/
def errObj (msg : String) : JValue := .obj [("error", .str msg)]

/-- Shared state of `AnalyticsOrchestrator`: the registered units, the
optionally supplied shared resources, the configuration, and the optional
cache manager.  (The dataset and column names are threaded to units at
construction and play no role in the orchestration logic itself.) -/
structure Orchestrator where
  registry : List Analyzer
  embeddings : Option (List (List ℚ))
  cluster_centroids : Option (List (List ℚ))
  config : Config
  cache : Option CacheManager

/-- One enabled unit is skipped by `run_all` exactly when it declares
`embeddings` (resp. `cluster_centroids`) among its dependencies and the
orchestrator holds no embedding (resp. centroid) matrix. -/
def skipsUnit (o : Orchestrator) (a : Analyzer) : Bool :=
  (a.deps.contains "embeddings" && o.embeddings.isNone)
    || (a.deps.contains "cluster_centroids" && o.cluster_centroids.isNone)

/-- The loop body of `AnalyticsOrchestrator.run_all` over the remaining
enabled units, threading the results dict, the cache manager state and the
file tree.  A result value of `none` is a Python `None` returned by
`compute_cached`. -/
def run_all_aux (o : Orchestrator) (useCache : Bool) :
    List Analyzer → List (String × Option JValue) → Option CacheManager →
    FileSys → List (String × Option JValue) × Option CacheManager × FileSys
  | [], results, c, fs => (results, c, fs)
  | a :: rest, results, c, fs =>
    if skipsUnit o a then
      run_all_aux o useCache rest results c fs
    else
      if useCache then
        let r := compute_cached a c fs none
        match r.result with
        | .ok v => run_all_aux o useCache rest (aset a.name v results) r.cache r.fs
        | .error e =>
          run_all_aux o useCache rest (aset a.name (some (errObj e)) results)
            r.cache r.fs
      else
        match a.compute with
        | .ok v => run_all_aux o useCache rest (aset a.name (some v) results) c fs
        | .error e =>
          run_all_aux o useCache rest (aset a.name (some (errObj e)) results) c fs

/-- AnalyticsOrchestrator.run_all: iterates the enabled units in registry
order; a unit whose pre-filtered dependency (`embeddings` or
`cluster_centroids`) is absent is skipped without an entry; an exception
raised during a unit's computation is caught and recorded as
`{name: {"error": str(e)}}`; every other unit's result is recorded under its
name. -/
def run_all (o : Orchestrator) (fs : FileSys) (useCache : Bool) :
    List (String × Option JValue) × Option CacheManager × FileSys :=
  run_all_aux o useCache (get_enabled o.registry o.config) [] o.cache fs

/-- One speech record, restricted to the columns the verified numerical
functions read: the speaker name (`deputy` column), the party label (`group`
column) and the topic/cluster id (`cluster` column).  The row-aligned
embedding matrix travels separately, as in the code. -/
structure SpeechRow where
  deputy : String
  group : String
  cluster : ℤ

/-- The designated unknown/unassigned party label. -/
def unknownGroup : String := "Unknown Group"

/-- pandas `Series.unique`: the distinct values in order of first
appearance. -/
def firstUniquesFrom {α : Type} [DecidableEq α] (seen : List α) :
    List α → List α
  | [] => []
  | x :: xs =>
    if x ∈ seen then firstUniquesFrom seen xs
    else x :: firstUniquesFrom (x :: seen) xs

/-- Distinct values of a column, in order of first appearance. -/
def firstUniques {α : Type} [DecidableEq α] (l : List α) : List α :=
  firstUniquesFrom [] l

theorem mem_firstUniquesFrom {α : Type} [DecidableEq α] {a : α}
    (l : List α) (seen : List α) :
    a ∈ firstUniquesFrom seen l ↔ a ∈ l ∧ a ∉ seen := by
  induction l generalizing seen with
  | nil => simp [firstUniquesFrom]
  | cons x xs ih =>
    by_cases hx : x ∈ seen
    · simp only [firstUniquesFrom, if_pos hx, ih]
      constructor
      · exact fun ⟨h1, h2⟩ => ⟨List.mem_cons_of_mem _ h1, h2⟩
      · rintro ⟨h1, h2⟩
        rcases List.mem_cons.mp h1 with h | h
        · exact absurd (h ▸ hx) h2
        · exact ⟨h, h2⟩
    · simp only [firstUniquesFrom, if_neg hx, List.mem_cons, ih]
      constructor
      · rintro (rfl | ⟨h1, h2⟩)
        · exact ⟨Or.inl rfl, hx⟩
        · exact ⟨Or.inr h1, fun hs => h2 (Or.inr hs)⟩
      · rintro ⟨h1 | h1, h2⟩
        · exact Or.inl h1
        · by_cases hax : a = x
          · exact Or.inl hax
          · exact Or.inr ⟨h1, fun hs => by
              rcases hs with hs | hs
              · exact hax hs
              · exact h2 hs⟩

theorem mem_firstUniques {α : Type} [DecidableEq α] {a : α} (l : List α) :
    a ∈ firstUniques l ↔ a ∈ l := by
  simp [firstUniques, mem_firstUniquesFrom]

noncomputable section

/-- Dot product of two dense vectors (trailing entries of a longer vector are
ignored; all vectors in one matrix share a dimension). -/
def dotList (x y : List ℝ) : ℝ := (List.zipWith (fun a b => a * b) x y).sum

/-- Componentwise sum of a stack of row vectors (`np.sum(vs, axis=0)`). -/
def vecSum : List (List ℝ) → List ℝ
  | [] => []
  | [v] => v
  | v :: w :: vs => List.zipWith (fun a b => a + b) v (vecSum (w :: vs))

/-- Componentwise mean of a stack of row vectors (`np.mean(vs, axis=0)`). -/
def vecMean (vs : List (List ℝ)) : List ℝ :=
  (vecSum vs).map (fun a => a / (vs.length : ℝ))

/-- Euclidean distance `np.linalg.norm(x - y)`. -/
def euclid (x y : List ℝ) : ℝ :=
  Real.sqrt (dotList (List.zipWith (fun a b => a - b) x y)
    (List.zipWith (fun a b => a - b) x y))

/-- Cosine similarity of two vectors, as computed by
`sklearn.metrics.pairwise.cosine_similarity` entrywise (Lean's division by a
zero norm yields 0). -/
def cosineSim (x y : List ℝ) : ℝ :=
  dotList x y / (Real.sqrt (dotList x x) * Real.sqrt (dotList y y))

/-- compute_party_centroids (relations/cohesion.py): one centroid per party
value in order of first appearance, skipping the `Unknown Group` label and
(vacuously for values drawn from the column) empty masks; the centroid is
the mean embedding of the party's rows. -/
def compute_party_centroids (df : List SpeechRow)
    (embeddings : List (List ℝ)) : List (String × List ℝ) :=
  (firstUniques (df.map (fun r => r.group))).filterMap (fun party =>
    if party = unknownGroup then none
    else
      let sel := ((df.zip embeddings).filter
        (fun p => decide (p.1.group = party))).map Prod.snd
      if sel.length = 0 then none
      else some (party, vecMean sel))

/-- The bounded score `1 / (1 + d)` applied to a possibly-infinite distance:
`none` models Python's `float('inf')`, for which `1/(1+inf)` is exactly 0. -/
def invDist : Option ℝ → ℝ
  | none => 0
  | some d => 1 / (1 + d)

/-- The classification thresholds of conformity.py: conformity above 0.7 is
mainstream; otherwise a cross-affinity exceeding the conformity is bridge;
otherwise maverick. -/
def classify (conformity cross_affinity : ℝ) : String :=
  if conformity > 0.7 then "mainstream"
  else if cross_affinity > conformity then "bridge"
  else "maverick"

/-- Python `min(d, key=d.get)` over an insertion-ordered distance dict: the
first entry attaining the minimal value. -/
def firstMin : List (String × ℝ) → Option (String × ℝ)
  | [] => none
  | (p, d) :: rest =>
    match firstMin rest with
    | none => some (p, d)
    | some (p', d') => if d' < d then some (p', d') else some (p, d)

/-- One entity's conformity record, as assembled by
compute_senator_conformity: scores are stored rounded to four decimals. -/
structure ConformityProfile where
  speaker : String
  party : String
  n_speeches : ℕ
  conformity : ℝ
  nearest_other_party : String
  cross_affinity : ℝ
  faction_label : String

/-- Python `round(x, 4)`, idealized as rounding to the nearest multiple of
`1/10000` (the code's banker's rounding on binary floats differs only on
representation-dependent halfway cases). -/
def round4 (x : ℝ) : ℝ := (round (x * 10000) : ℤ) / 10000

/-- Distance from an entity's mean embedding to its own party's centroid:
`none` models `float('inf')` when the party has no centroid (as for
`Unknown Group` members). -/
def ownDistanceOf (centroids : List (String × List ℝ)) (party : String)
    (sc : List ℝ) : Option ℝ :=
  match alookup party centroids with
  | some c => some (euclid sc c)
  | none => none

/-- Distances from an entity's mean embedding to every other party's
centroid, in centroid-dict order. -/
def otherDistancesOf (centroids : List (String × List ℝ)) (party : String)
    (sc : List ℝ) : List (String × ℝ) :=
  centroids.filterMap (fun pc =>
    if pc.1 = party then none
    else some (pc.1, euclid sc pc.2))

/-- Nearest foreign party and its distance; `("N/A", none)` when there is
no other party (the `none` models `float('inf')`). -/
def nearestOf (centroids : List (String × List ℝ)) (party : String)
    (sc : List ℝ) : String × Option ℝ :=
  match firstMin (otherDistancesOf centroids party sc) with
  | some pd => (pd.1, some pd.2)
  | none => ("N/A", none)

/-- The loop body of compute_senator_conformity for one speaker: `none` when
the speaker selects no rows; otherwise the profile with the own-party
distance, the nearest foreign party and the derived scores and label. -/
def speakerProfile (df : List SpeechRow) (embeddings : List (List ℝ))
    (speaker : String) (centroids : List (String × List ℝ)) :
    Option ConformityProfile :=
  let sel := (df.zip embeddings).filter (fun p => decide (p.1.deputy = speaker))
  match sel with
  | [] => none
  | s :: _ =>
    let party := s.1.group
    let speakerCentroid := vecMean (sel.map Prod.snd)
    let ownDistance := ownDistanceOf centroids party speakerCentroid
    let nearest := nearestOf centroids party speakerCentroid
    let conformity := invDist ownDistance
    let cross_affinity := invDist nearest.2
    some ⟨speaker, party, sel.length, round4 conformity, nearest.1,
      round4 cross_affinity, classify conformity cross_affinity⟩

/-- compute_senator_conformity (factions/conformity.py): party centroids
first (empty centroids short-circuit to an empty result), then one profile
per distinct speaker of the dataset. -/
def compute_senator_conformity (df : List SpeechRow)
    (embeddings : List (List ℝ)) : List ConformityProfile :=
  let centroids := compute_party_centroids df embeddings
  if centroids.isEmpty then []
  else
    (firstUniques (df.map (fun r => r.deputy))).filterMap
      (fun sp => speakerProfile df embeddings sp centroids)

/-- PoliticalAnalytics.cluster_centroids (analytics.py): one centroid row per
topic id in sorted-id order; a topic with at least one assigned row gets the
mean embedding of its rows, an empty topic gets an all-zeros row of the
embedding dimension. -/
def cluster_centroids (df : List SpeechRow) (embeddings : List (List ℝ))
    (cluster_labels : List (ℤ × String)) : List (List ℝ) :=
  let dim := (embeddings.headD []).length
  ((cluster_labels.map Prod.fst).insertionSort (fun i j => i ≤ j)).map
    (fun cid =>
      if (df.filter (fun r => decide (r.cluster = cid))).length > 0 then
        vecMean (((df.zip embeddings).filter
          (fun p => decide (p.1.cluster = cid))).map Prod.snd)
      else List.replicate dim 0)

end

/-- First index of the maximum of a list (`np.argmax`): the head wins unless
a strictly greater element appears later. -/
def argmaxIdx {α : Type} [LinearOrder α] : List α → ℕ
  | [] => 0
  | [_] => 0
  | x :: y :: xs =>
    let j := argmaxIdx (y :: xs)
    if x < (y :: xs).getD j y then j + 1 else 0

/-- One taxonomy topic definition: human-readable label and keyword set. -/
structure TopicInfo where
  label : String
  keywords : List String

/-- The text embedded for one taxonomy topic: its label, a colon and the
comma-joined keywords. -/
def topicText (info : TopicInfo) : String :=
  info.label ++ ": " ++ String.intercalate ", " info.keywords

/-- The taxonomy's topic ids, sorted ascending. -/
def sortedClusterIds (topic_clusters : List (ℤ × TopicInfo)) : List ℤ :=
  (topic_clusters.map Prod.fst).insertionSort (fun i j => i ≤ j)

noncomputable section

/-- The small fixed topic-embedding matrix: each taxonomy definition's text,
embedded once by the injected sentence-embedding model `encode`, in
sorted-id order. -/
def topicEmbedMatrix (encode : String → List ℝ)
    (topic_clusters : List (ℤ × TopicInfo)) : List (List ℝ) :=
  (sortedClusterIds topic_clusters).map (fun cid =>
    encode (topicText ((alookup cid topic_clusters).getD ⟨"", []⟩)))

/-- The speeches-by-topics cosine-similarity matrix. -/
def simMatrix (embeddings : List (List ℝ)) (topicEmbeddings : List (List ℝ)) :
    List (List ℝ) :=
  embeddings.map (fun e => topicEmbeddings.map (fun t => cosineSim e t))

/-- assign_topics_by_semantics (core/clustering.py): embeds each taxonomy
definition, computes the speeches-by-topics cosine-similarity matrix, takes
the per-row argmax and maps the winning column back to the sorted topic ids;
returns the assignments and the full similarity matrix. -/
def assign_topics_by_semantics (embeddings : List (List ℝ))
    (encode : String → List ℝ) (topic_clusters : List (ℤ × TopicInfo)) :
    List ℤ × List (List ℝ) :=
  let sortedIds := sortedClusterIds topic_clusters
  let similarities := simMatrix embeddings (topicEmbedMatrix encode topic_clusters)
  let assignments := similarities.map (fun row => sortedIds.getD (argmaxIdx row) 0)
  (assignments, similarities)

end

theorem has_of_get_some {mgr : CacheManager} {fs : FileSys} {key : String}
    {v : JValue} (h : (mgr.get fs key).1 = some v) : mgr.has fs key = true := by
  unfold CacheManager.get at h
  unfold CacheManager.has
  cases hmem : alookup key mgr.memory with
  | some w => simp [hmem]
  | none =>
    rw [hmem] at h
    cases hp : mgr.persist with
    | false => simp [hp] at h
    | true =>
      rw [hp] at h
      simp only [if_true] at h
      cases hd : alookup (fileName key) (dirOf fs mgr.source) with
      | none => rw [hd] at h; simp at h
      | some w =>
        cases w with
        | none => rw [hd] at h; simp at h
        | some u => simp [hmem, hp, hd]

/-- C1 (amended).  `compute_cached` with an attached cache: when `get`
resolves the key to a value, that value is returned and `compute()` is not
called; when `has` reports a miss, `compute()` runs and an `ok` result is
returned and stored in memory under the key; but when the only record for
the key is a corrupt persisted file, `has` reports a hit while `get`
resolves nothing, so the call returns the absent value (`None`) without
computing and without storing anything. -/
theorem compute_cached_contract (a : Analyzer) (mgr : CacheManager)
    (fs : FileSys) (ck : Option String) :
    (∀ v, (mgr.get fs (resolveKey a ck)).1 = some v →
        (compute_cached a (some mgr) fs ck).result = .ok (some v)
        ∧ (compute_cached a (some mgr) fs ck).computed = false)
    ∧ (mgr.has fs (resolveKey a ck) = false →
        (compute_cached a (some mgr) fs ck).computed = true
        ∧ ∀ r, a.compute = .ok r →
            (compute_cached a (some mgr) fs ck).result = .ok (some r)
            ∧ ∃ mgr', (compute_cached a (some mgr) fs ck).cache = some mgr'
                ∧ alookup (resolveKey a ck) mgr'.memory = some r)
    ∧ (alookup (resolveKey a ck) mgr.memory = none →
        mgr.persist = true →
        alookup (fileName (resolveKey a ck)) (dirOf fs mgr.source) = some none →
        (compute_cached a (some mgr) fs ck).result = .ok none
        ∧ (compute_cached a (some mgr) fs ck).computed = false) := by
  refine ⟨?_, ?_, ?_⟩
  · intro v hv
    have hhas := has_of_get_some hv
    simp [compute_cached, hhas, hv]
  · intro hmiss
    constructor
    · cases hc : a.compute <;> simp [compute_cached, hmiss, hc]
    · intro r hr
      refine ⟨by simp [compute_cached, hmiss, hr], ?_⟩
      refine ⟨(mgr.set fs (resolveKey a ck) r none none).1,
        by simp [compute_cached, hmiss, hr], ?_⟩
      simp [CacheManager.set, alookup_aset_self]
  · intro hmem hp hfile
    have hhas : mgr.has fs (resolveKey a ck) = true := by
      simp [CacheManager.has, hmem, hp, hfile]
    have hget : (mgr.get fs (resolveKey a ck)).1 = none := by
      simp [CacheManager.get, hmem, hp, hfile]
    simp [compute_cached, hhas, hget]

/-- A unit whose computation yields a fresh result, a cache holding nothing
in memory, and a persisted file for the unit's default key that fails to
parse. -/
def freshUnit : Analyzer := ⟨"identity", "1.0", [], .ok (.str "fresh")⟩

def corruptMgr : CacheManager := ⟨"camera", true, [], []⟩

def corruptFs : FileSys := ⟨[("camera", [("identity_v1.0.json", none)])]⟩

/-- C1 counterexample.  With the only record for the default key being a
corrupt persisted file, `compute_cached` neither calls `compute()` nor
returns the freshly computed result: it returns the absent value, refuting
the claim that a corrupt file is handled as a miss by `compute_cached`. -/
theorem compute_cached_corrupt_cex :
    (compute_cached freshUnit (some corruptMgr) corruptFs none).computed = false
    ∧ (compute_cached freshUnit (some corruptMgr) corruptFs none).result = .ok none
    ∧ (compute_cached freshUnit (some corruptMgr) corruptFs none).result
        ≠ .ok (some (.str "fresh")) := by
  refine ⟨rfl, rfl, ?_⟩
  intro h
  have : (Except.ok none : Except String (Option JValue))
      = .ok (some (.str "fresh")) := by
    have h2 : (compute_cached freshUnit (some corruptMgr) corruptFs none).result
        = .ok none := rfl
    rw [h2] at h
    exact h
  simp at this

/-- C1 witness: the corrupt-file branch of the amended contract, discharged
at the concrete corrupt-file state (memory miss, persisted file present but
unparseable). -/
theorem compute_cached_contract_witness :
    alookup (resolveKey freshUnit none) corruptMgr.memory = none
    ∧ corruptMgr.persist = true
    ∧ alookup (fileName (resolveKey freshUnit none))
        (dirOf corruptFs corruptMgr.source) = some none
    ∧ ((compute_cached freshUnit (some corruptMgr) corruptFs none).result = .ok none
        ∧ (compute_cached freshUnit (some corruptMgr) corruptFs none).computed = false) :=
  ⟨rfl, rfl, rfl,
    (compute_cached_contract freshUnit corruptMgr corruptFs none).2.2 rfl rfl rfl⟩

/-- C10: for a key absent from memory whose persisted file exists but fails
to parse, `has` answers true while `get` resolves nothing — a positive
`has(key)` does not imply that `get(key)` yields a value. -/
theorem has_true_get_none_on_corrupt (mgr : CacheManager) (fs : FileSys)
    (key : String) (hmem : alookup key mgr.memory = none)
    (hp : mgr.persist = true)
    (hfile : alookup (fileName key) (dirOf fs mgr.source) = some none) :
    mgr.has fs key = true ∧ (mgr.get fs key).1 = none := by
  constructor
  · simp [CacheManager.has, hmem, hp, hfile]
  · simp [CacheManager.get, hmem, hp, hfile]

/-- C10 witness: the has/get disagreement at the concrete corrupt-file
state. -/
theorem has_true_get_none_on_corrupt_witness :
    alookup "identity_v1.0" corruptMgr.memory = none
    ∧ corruptMgr.persist = true
    ∧ alookup (fileName "identity_v1.0") (dirOf corruptFs corruptMgr.source)
        = some none
    ∧ (corruptMgr.has corruptFs "identity_v1.0" = true
        ∧ (corruptMgr.get corruptFs "identity_v1.0").1 = none) :=
  ⟨rfl, rfl, rfl,
    has_true_get_none_on_corrupt corruptMgr corruptFs "identity_v1.0" rfl rfl rfl⟩

theorem foldl_adel_filter_of_iff {α : Type} {q : String → Bool}
    {L : List String} (m : List (String × α))
    (h : ∀ kv ∈ m, (kv.1 ∈ L ↔ q kv.1 = true)) :
    L.foldl (fun acc k => adel k acc) m = m.filter (fun kv => !q kv.1) := by
  rw [foldl_adel_eq_filter]
  apply List.filter_congr
  intro kv hkv
  by_cases hq : q kv.1 = true
  · simp [hq, (h kv hkv).mpr hq]
  · have : kv.1 ∉ L := fun hl => hq ((h kv hkv).mp hl)
    simp [this, hq]

theorem removeMatchingKeys_eq_filter {α : Type} (q : String → Bool)
    (m : List (String × α)) :
    ((m.filter (fun kv => q kv.1)).map Prod.fst).foldl
        (fun acc k => adel k acc) m
      = m.filter (fun kv => !q kv.1) := by
  apply foldl_adel_filter_of_iff
  intro kv hkv
  constructor
  · intro hl
    rcases List.mem_map.mp hl with ⟨f, hf, hfst⟩
    rw [← hfst]
    exact (List.mem_filter.mp hf).2
  · intro hq
    exact List.mem_map.mpr ⟨kv, List.mem_filter.mpr ⟨hkv, hq⟩, rfl⟩

theorem removeMatchingKeys2_eq_filter {α : Type} (q1 q2 : String → Bool)
    (m : List (String × α)) :
    (((m.filter (fun kv => q1 kv.1)).map Prod.fst).filter q2).foldl
        (fun acc k => adel k acc) m
      = m.filter (fun kv => !(q1 kv.1 && q2 kv.1)) := by
  refine @foldl_adel_filter_of_iff α (fun k => q1 k && q2 k) _ m ?_
  intro kv hkv
  constructor
  · intro hl
    have h2 := List.mem_filter.mp hl
    rcases List.mem_map.mp h2.1 with ⟨f, hf, hfst⟩
    have h1 := (List.mem_filter.mp hf).2
    have h1' : q1 kv.1 = true := hfst ▸ h1
    simp [h1', h2.2]
  · intro hq
    have hpair : q1 kv.1 = true ∧ q2 kv.1 = true := by simpa using hq
    exact List.mem_filter.mpr
      ⟨List.mem_map.mpr ⟨kv, List.mem_filter.mpr ⟨hkv, hpair.1⟩, rfl⟩, hpair.2⟩

/-- C7 (amended).  `invalidate(pattern)` removes exactly the memory keys
containing the pattern as a substring, and exactly the persisted files of
this source whose sanitized filename is matched by the glob built from the
pattern (sparing `_metadata.json`); these two sets agree only when the key
survives sanitization verbatim, so a key containing a path separator can be
dropped from memory while its file stays.  `invalidate(None)` clears all
memory entries and metadata and deletes every `*.json` file of this source
except `_metadata.json`.  In both forms every other source's directory is
untouched, and without persistence the file tree is untouched. -/
theorem invalidate_exact (mgr : CacheManager) (fs : FileSys) (p : String) :
    ((mgr.invalidate fs (some p)).1.memory
        = mgr.memory.filter (fun kv => !containsSub p kv.1))
    ∧ (mgr.persist = true →
        dirOf (mgr.invalidate fs (some p)).2 mgr.source
          = (dirOf fs mgr.source).filter
              (fun f => !(diskGlobMatches p f.1
                && decide (f.1 ≠ "_metadata.json"))))
    ∧ (∀ s, s ≠ mgr.source →
        dirOf (mgr.invalidate fs (some p)).2 s = dirOf fs s)
    ∧ (mgr.persist = false → (mgr.invalidate fs (some p)).2 = fs)
    ∧ ((mgr.invalidate fs none).1.memory = []
        ∧ (mgr.invalidate fs none).1.metadata = [])
    ∧ (mgr.persist = true →
        dirOf (mgr.invalidate fs none).2 mgr.source
          = (dirOf fs mgr.source).filter
              (fun f => !(globMatch "*.json".toList f.1.toList
                && decide (f.1 ≠ "_metadata.json"))))
    ∧ (∀ s, s ≠ mgr.source → dirOf (mgr.invalidate fs none).2 s = dirOf fs s)
    ∧ (mgr.persist = false → (mgr.invalidate fs none).2 = fs) := by
  refine ⟨?_, ?_, ?_, ?_, ⟨rfl, rfl⟩, ?_, ?_, ?_⟩
  · simp only [CacheManager.invalidate]
    exact removeMatchingKeys_eq_filter (fun k => containsSub p k) mgr.memory
  · intro hp
    simp only [CacheManager.invalidate, hp, if_true, dirOf_updateDir_self]
    exact removeMatchingKeys2_eq_filter (fun n => diskGlobMatches p n)
      (fun n => decide (n ≠ "_metadata.json")) (dirOf fs mgr.source)
  · intro s hs
    by_cases hp : mgr.persist
    · simp only [CacheManager.invalidate, hp, if_true]
      exact dirOf_updateDir_ne fs _ hs
    · simp [CacheManager.invalidate, hp]
  · intro hp
    simp [CacheManager.invalidate, hp]
  · intro hp
    simp only [CacheManager.invalidate, hp, if_true, dirOf_updateDir_self]
    exact removeMatchingKeys2_eq_filter
      (fun n => globMatch "*.json".toList n.toList)
      (fun n => decide (n ≠ "_metadata.json")) (dirOf fs mgr.source)
  · intro s hs
    by_cases hp : mgr.persist
    · simp only [CacheManager.invalidate, hp, if_true]
      exact dirOf_updateDir_ne fs _ hs
    · simp [CacheManager.invalidate, hp]
  · intro hp
    simp [CacheManager.invalidate, hp]

/-- A cache with the single memory key "a/b" whose persisted file carries
the sanitized name. -/
def slashMgr : CacheManager := ⟨"camera", true, [("a/b", .null)], []⟩

def slashFs : FileSys := ⟨[("camera", [("a_b.json", some .null)])]⟩

/-- C7 counterexample.  The key "a/b" contains the pattern "a/b", and
`invalidate("a/b")` removes it from memory — but the persisted file for that
very key survives, because the glob runs against the sanitized filename
"a_b.json" (and a slash in the pattern makes the glob descend directories).
This refutes the claim that keys containing the pattern are removed from
both the memory map and the persisted files. -/
theorem invalidate_slash_cex :
    containsSub "a/b" "a/b" = true
    ∧ (slashMgr.invalidate slashFs (some "a/b")).1.memory = []
    ∧ alookup "a_b.json"
        (dirOf (slashMgr.invalidate slashFs (some "a/b")).2 "camera")
      = some (some .null) :=
  ⟨rfl, rfl, rfl⟩

theorem any_name_iff (R : List Analyzer) (n : String) :
    R.any (fun b => b.name == n) = true ↔ n ∈ R.map Analyzer.name := by
  rw [List.any_eq_true]
  constructor
  · rintro ⟨x, hx, hbx⟩
    exact List.mem_map.mpr ⟨x, hx, by simpa using hbx⟩
  · intro hmem
    rcases List.mem_map.mp hmem with ⟨x, hx, hxn⟩
    exact ⟨x, hx, by simpa using hxn⟩

theorem register_pos (R : List Analyzer) (a : Analyzer)
    (h : R.any (fun b => b.name == a.name) = true) :
    register R a = R.map (fun b => if b.name = a.name then a else b) := by
  unfold register
  rw [if_pos h]

theorem register_neg (R : List Analyzer) (a : Analyzer)
    (h : ¬R.any (fun b => b.name == a.name) = true) :
    register R a = R ++ [a] := by
  unfold register
  rw [if_neg h]

theorem name_mem_register (R : List Analyzer) (a : Analyzer) :
    a.name ∈ (register R a).map Analyzer.name := by
  by_cases hany : R.any (fun b => b.name == a.name) = true
  · rw [register_pos R a hany]
    rcases List.mem_map.mp ((any_name_iff R a.name).mp hany) with ⟨x, hx, hxn⟩
    refine List.mem_map.mpr ⟨a, ?_, rfl⟩
    exact List.mem_map.mpr ⟨x, hx, by simp [hxn]⟩
  · rw [register_neg R a hany, List.map_append]
    exact List.mem_append_right _ (by simp)

theorem regGet_replace (R : List Analyzer) (c : Analyzer)
    (hmem : ∃ x ∈ R, x.name = c.name) :
    regGet (R.map (fun b => if b.name = c.name then c else b)) c.name
      = some c := by
  induction R with
  | nil => simp at hmem
  | cons hd t ih =>
    by_cases hn : hd.name = c.name
    · simp [regGet, hn]
    · have hmem' : ∃ x ∈ t, x.name = c.name := by
        rcases hmem with ⟨x, hx, hxn⟩
        rcases List.mem_cons.mp hx with rfl | hx'
        · exact absurd hxn hn
        · exact ⟨x, hx', hxn⟩
      simpa [regGet, hn] using ih hmem'

theorem register_entry_eq (R : List Analyzer) (a : Analyzer) :
    ∀ b ∈ register R a, b.name = a.name → b = a := by
  intro b hb hname
  by_cases hany : R.any (fun x => x.name == a.name) = true
  · rw [register_pos R a hany] at hb
    rcases List.mem_map.mp hb with ⟨x, _, hxe⟩
    by_cases hxn : x.name = a.name
    · rw [if_pos hxn] at hxe
      exact hxe.symm
    · rw [if_neg hxn] at hxe
      rw [← hxe] at hname
      exact absurd hname hxn
  · rw [register_neg R a hany] at hb
    rcases List.mem_append.mp hb with hb' | hb'
    · exact absurd ((any_name_iff R a.name).mpr
        (List.mem_map.mpr ⟨b, hb', hname⟩)) hany
    · simpa using hb'

/-- C8: registering under an existing name silently overwrites in place —
after registering `a` then `b` with the same name, lookup yields exactly
`b` and the registry size is unchanged; the size grows by exactly one for a
fresh name and by zero for an existing one; and registering the same unit
twice leaves the registry in the same end state as registering it once. -/
theorem register_overwrite (R : List Analyzer) (a b : Analyzer)
    (h : b.name = a.name) :
    regGet (register (register R a) b) a.name = some b
    ∧ (register (register R a) b).length = (register R a).length
    ∧ (a.name ∉ R.map Analyzer.name → (register R a).length = R.length + 1)
    ∧ (a.name ∈ R.map Analyzer.name → (register R a).length = R.length)
    ∧ register (register R a) a = register R a := by
  have hmem : a.name ∈ (register R a).map Analyzer.name := name_mem_register R a
  have hany : (register R a).any (fun x => x.name == b.name) = true := by
    rw [h]
    exact (any_name_iff _ a.name).mpr hmem
  refine ⟨?_, ?_, ?_, ?_, ?_⟩
  · rw [register_pos (register R a) b hany, ← h]
    have hx : ∃ x ∈ register R a, x.name = b.name := by
      rcases List.mem_map.mp hmem with ⟨x, hxm, hxn⟩
      exact ⟨x, hxm, by rw [hxn, h]⟩
    exact regGet_replace (register R a) b hx
  · rw [register_pos (register R a) b hany]
    exact List.length_map _ _
  · intro hnot
    rw [register_neg R a (fun hc => hnot ((any_name_iff R a.name).mp hc))]
    simp
  · intro hin
    rw [register_pos R a ((any_name_iff R a.name).mpr hin)]
    exact List.length_map _ _
  · have hany2 : (register R a).any (fun x => x.name == a.name) = true :=
      (any_name_iff _ a.name).mpr hmem
    rw [register_pos (register R a) a hany2]
    have heid : ∀ x ∈ register R a,
        (if x.name = a.name then a else x) = id x := by
      intro x hx
      by_cases hxn : x.name = a.name
      · rw [if_pos hxn]
        exact (register_entry_eq R a x hx hxn).symm
      · rw [if_neg hxn]
        rfl
    rw [List.map_congr_left heid, List.map_id]

/-- Two units sharing the registry name "identity". -/
def unitA : Analyzer := ⟨"identity", "1.0", [], .ok .null⟩

def unitB : Analyzer := ⟨"identity", "2.0", [], .ok (.str "b")⟩

/-- C8 witness: overwrite-in-place, size growth and idempotence at a
concrete two-registration sequence on an empty registry. -/
theorem register_overwrite_witness :
    unitB.name = unitA.name
    ∧ regGet (register (register [] unitA) unitB) unitA.name = some unitB
    ∧ (register ([] : List Analyzer) unitA).length
        = ([] : List Analyzer).length + 1
    ∧ register (register [] unitA) unitA = register [] unitA :=
  ⟨rfl, (register_overwrite [] unitA unitB rfl).1,
    (register_overwrite [] unitA unitB rfl).2.2.1 (by simp),
    (register_overwrite [] unitA unitB rfl).2.2.2.2⟩

/-- C9: the derived topic-centroid matrix has exactly one row per topic id,
the ids are traversed in strictly increasing sorted order, and a topic id
with no assigned speech keeps its slot as an all-zeros row of the embedding
dimension (a real-valued zero row, never an undefined value) instead of
being dropped. -/
theorem cluster_centroids_keeps_slots (df : List SpeechRow)
    (embeddings : List (List ℝ)) (cluster_labels : List (ℤ × String))
    (hnd : (cluster_labels.map Prod.fst).Nodup) :
    (cluster_centroids df embeddings cluster_labels).length
        = cluster_labels.length
    ∧ List.Sorted (fun i j => i < j)
        ((cluster_labels.map Prod.fst).insertionSort (fun i j => i ≤ j))
    ∧ ((cluster_labels.map Prod.fst).insertionSort (fun i j => i ≤ j)).length
        = cluster_labels.length
    ∧ ∀ j (hj : j < ((cluster_labels.map Prod.fst).insertionSort
          (fun i j => i ≤ j)).length),
        (∀ r ∈ df, r.cluster
            ≠ ((cluster_labels.map Prod.fst).insertionSort
                (fun i j => i ≤ j)).get ⟨j, hj⟩) →
        (cluster_centroids df embeddings cluster_labels).getD j []
          = List.replicate (embeddings.headD []).length 0 := by
  have hperm := List.perm_insertionSort (fun i j : ℤ => i ≤ j)
    (cluster_labels.map Prod.fst)
  have hlen : ((cluster_labels.map Prod.fst).insertionSort
      (fun i j => i ≤ j)).length = cluster_labels.length := by
    rw [hperm.length_eq, List.length_map]
  have hsortednd : ((cluster_labels.map Prod.fst).insertionSort
      (fun i j => i ≤ j)).Nodup := hperm.nodup_iff.mpr hnd
  refine ⟨?_, ?_, hlen, ?_⟩
  · unfold cluster_centroids
    rw [List.length_map, hlen]
  · exact List.Sorted.lt_of_le
      (List.sorted_insertionSort _ _) hsortednd
  · intro j hj hempty
    have hlt : j < (cluster_centroids df embeddings cluster_labels).length := by
      unfold cluster_centroids
      rw [List.length_map]
      exact hj
    rw [List.getD_eq_getElem _ _ hlt]
    unfold cluster_centroids
    rw [List.getElem_map]
    have hfil : df.filter (fun r => decide (r.cluster
        = ((cluster_labels.map Prod.fst).insertionSort
            (fun i j => i ≤ j))[j])) = [] := by
      rw [List.filter_eq_nil_iff]
      intro r hr
      simpa [List.get_eq_getElem] using hempty r hr
    simp only [hfil]
    rfl

/-- Two topic ids, the second with no assigned speeches. -/
def labelsEx : List (ℤ × String) := [(0, "economy"), (1, "foreign")]

def dfTopics : List SpeechRow := [⟨"rossi", "P1", 0⟩]

/-- C9 witness: with one speech on topic 0 and none on topic 1, the centroid
matrix keeps both rows and the empty topic's row is the zero vector. -/
theorem cluster_centroids_keeps_slots_witness :
    (labelsEx.map Prod.fst).Nodup
    ∧ (cluster_centroids dfTopics [[(1 : ℝ), 2]] labelsEx).length
        = labelsEx.length :=
  ⟨by decide,
    (cluster_centroids_keeps_slots dfTopics [[(1 : ℝ), 2]] labelsEx
      (by decide)).1⟩

theorem argmaxIdx_lt_length {α : Type} [LinearOrder α] :
    ∀ (l : List α), l ≠ [] → argmaxIdx l < l.length := by
  intro l
  induction l with
  | nil => intro h; exact absurd rfl h
  | cons x t ih =>
    intro _
    cases t with
    | nil => simp [argmaxIdx]
    | cons y xs =>
      show argmaxIdx (x :: y :: xs) < (x :: y :: xs).length
      rw [argmaxIdx]
      by_cases hx : x < (y :: xs).getD (argmaxIdx (y :: xs)) y
      · rw [if_pos hx]
        have := ih (by simp)
        simpa using Nat.succ_lt_succ this
      · rw [if_neg hx]
        simp

theorem getD_le_argmaxIdx {α : Type} [LinearOrder α] (d : α) :
    ∀ (l : List α) (k : ℕ), k < l.length →
      l.getD k d ≤ l.getD (argmaxIdx l) d := by
  intro l
  induction l with
  | nil => intro k hk; simp at hk
  | cons x t ih =>
    intro k hk
    cases t with
    | nil =>
      cases k with
      | zero => simp [argmaxIdx]
      | succ k' => simp at hk
    | cons y xs =>
      have hjlt : argmaxIdx (y :: xs) < (y :: xs).length :=
        argmaxIdx_lt_length (y :: xs) (by simp)
      have hdefault : (y :: xs).getD (argmaxIdx (y :: xs)) y
          = (y :: xs).getD (argmaxIdx (y :: xs)) d := by
        rw [List.getD_eq_getElem _ _ hjlt, List.getD_eq_getElem _ _ hjlt]
      rw [show argmaxIdx (x :: y :: xs)
          = if x < (y :: xs).getD (argmaxIdx (y :: xs)) y
            then argmaxIdx (y :: xs) + 1 else 0 from by rw [argmaxIdx]]
      by_cases hx : x < (y :: xs).getD (argmaxIdx (y :: xs)) y
      · rw [if_pos hx]
        cases k with
        | zero =>
          show x ≤ (y :: xs).getD (argmaxIdx (y :: xs)) d
          rw [← hdefault]
          exact le_of_lt hx
        | succ k' =>
          show (y :: xs).getD k' d ≤ (y :: xs).getD (argmaxIdx (y :: xs)) d
          exact ih k' (by simpa using hk)
      · rw [if_neg hx]
        cases k with
        | zero => exact le_refl _
        | succ k' =>
          show (y :: xs).getD k' d ≤ x
          have h1 : (y :: xs).getD k' d
              ≤ (y :: xs).getD (argmaxIdx (y :: xs)) d :=
            ih k' (by simpa using hk)
          have h2 : (y :: xs).getD (argmaxIdx (y :: xs)) d ≤ x := by
            rw [← hdefault]
            exact le_of_not_lt hx
          exact le_trans h1 h2

theorem getD_lt_of_lt_argmaxIdx {α : Type} [LinearOrder α] (d : α) :
    ∀ (l : List α) (k : ℕ), k < argmaxIdx l →
      l.getD k d < l.getD (argmaxIdx l) d := by
  intro l
  induction l with
  | nil => intro k hk; simp [argmaxIdx] at hk
  | cons x t ih =>
    intro k hk
    cases t with
    | nil => simp [argmaxIdx] at hk
    | cons y xs =>
      have hjlt : argmaxIdx (y :: xs) < (y :: xs).length :=
        argmaxIdx_lt_length (y :: xs) (by simp)
      have hdefault : (y :: xs).getD (argmaxIdx (y :: xs)) y
          = (y :: xs).getD (argmaxIdx (y :: xs)) d := by
        rw [List.getD_eq_getElem _ _ hjlt, List.getD_eq_getElem _ _ hjlt]
      rw [show argmaxIdx (x :: y :: xs)
          = if x < (y :: xs).getD (argmaxIdx (y :: xs)) y
            then argmaxIdx (y :: xs) + 1 else 0 from by rw [argmaxIdx]] at hk ⊢
      by_cases hx : x < (y :: xs).getD (argmaxIdx (y :: xs)) y
      · rw [if_pos hx] at hk ⊢
        cases k with
        | zero =>
          show x < (y :: xs).getD (argmaxIdx (y :: xs)) d
          rw [← hdefault]
          exact hx
        | succ k' =>
          show (y :: xs).getD k' d < (y :: xs).getD (argmaxIdx (y :: xs)) d
          exact ih k' (by simpa using hk)
      · rw [if_neg hx] at hk
        simp at hk

theorem getD_map_of_lt {α β : Type} (f : α → β) (l : List α) (i : ℕ)
    (h : i < l.length) (d : α) (d' : β) :
    (l.map f).getD i d' = f (l.getD i d) := by
  induction l generalizing i with
  | nil => simp at h
  | cons x t ih =>
    cases i with
    | zero => rfl
    | succ i' => exact ih i' (by simpa using h)

/-- C5: the taxonomy assignment returns a similarity matrix with one row
per input embedding and one column per taxonomy entry, whose entries are
the cosine similarities against the topic-embedding matrix, plus one topic
id per row; each row's assigned id sits at the row's first-maximum column,
every column's similarity is bounded by that column's, and any column tying
the maximum carries a topic id at least as large — the tie breaks to the
lowest topic id. -/
theorem assign_topics_spec (embeddings : List (List ℝ))
    (encode : String → List ℝ) (tax : List (ℤ × TopicInfo))
    (A : List ℤ) (S : List (List ℝ))
    (hne : tax ≠ [])
    (hAS : (A, S) = assign_topics_by_semantics embeddings encode tax) :
    S.length = embeddings.length
    ∧ (∀ row ∈ S, row.length = tax.length)
    ∧ A.length = embeddings.length
    ∧ ∀ i, i < embeddings.length →
        argmaxIdx (S.getD i []) < tax.length
        ∧ A.getD i 0 = (sortedClusterIds tax).getD (argmaxIdx (S.getD i [])) 0
        ∧ (∀ k, k < tax.length →
            (S.getD i []).getD k 0
              = cosineSim (embeddings.getD i [])
                  ((topicEmbedMatrix encode tax).getD k []))
        ∧ (∀ k, k < tax.length →
            (S.getD i []).getD k 0
              ≤ (S.getD i []).getD (argmaxIdx (S.getD i [])) 0)
        ∧ (∀ k, k < tax.length →
            (S.getD i []).getD (argmaxIdx (S.getD i [])) 0
                = (S.getD i []).getD k 0 →
            (sortedClusterIds tax).getD (argmaxIdx (S.getD i [])) 0
              ≤ (sortedClusterIds tax).getD k 0) := by
  have hS : S = simMatrix embeddings (topicEmbedMatrix encode tax) := by
    have h := congrArg Prod.snd hAS
    simpa [assign_topics_by_semantics] using h
  have hA : A = (simMatrix embeddings (topicEmbedMatrix encode tax)).map
      (fun row => (sortedClusterIds tax).getD (argmaxIdx row) 0) := by
    have h := congrArg Prod.fst hAS
    simpa [assign_topics_by_semantics] using h
  subst hS
  subst hA
  have hsid_len : (sortedClusterIds tax).length = tax.length := by
    unfold sortedClusterIds
    rw [(List.perm_insertionSort _ _).length_eq, List.length_map]
  have htop : (topicEmbedMatrix encode tax).length = tax.length := by
    unfold topicEmbedMatrix
    rw [List.length_map, hsid_len]
  have hSlen : (simMatrix embeddings (topicEmbedMatrix encode tax)).length
      = embeddings.length := by
    unfold simMatrix
    exact List.length_map _ _
  have hsorted : List.Sorted (fun i j : ℤ => i ≤ j) (sortedClusterIds tax) := by
    unfold sortedClusterIds
    exact List.sorted_insertionSort _ _
  refine ⟨hSlen, ?_, ?_, ?_⟩
  · intro row hrow
    unfold simMatrix at hrow
    rcases List.mem_map.mp hrow with ⟨e, _, hre⟩
    rw [← hre, List.length_map, htop]
  · rw [List.length_map, hSlen]
  · intro i hi
    have hrowi : (simMatrix embeddings (topicEmbedMatrix encode tax)).getD i []
        = (topicEmbedMatrix encode tax).map
            (fun t => cosineSim (embeddings.getD i []) t) := by
      unfold simMatrix
      exact getD_map_of_lt _ embeddings i hi [] []
    have hrowlen : ((simMatrix embeddings
        (topicEmbedMatrix encode tax)).getD i []).length = tax.length := by
      rw [hrowi, List.length_map, htop]
    have hrowne : (simMatrix embeddings
        (topicEmbedMatrix encode tax)).getD i [] ≠ [] := by
      intro hemp
      rw [hemp] at hrowlen
      exact hne (List.length_eq_zero.mp hrowlen.symm)
    have hj : argmaxIdx ((simMatrix embeddings
        (topicEmbedMatrix encode tax)).getD i []) < tax.length := by
      rw [← hrowlen]
      exact argmaxIdx_lt_length _ hrowne
    refine ⟨hj, ?_, ?_, ?_, ?_⟩
    · have hiS : i < (simMatrix embeddings
          (topicEmbedMatrix encode tax)).length := by
        rw [hSlen]; exact hi
      exact getD_map_of_lt _ _ i hiS [] 0
    · intro k hk
      have hktop : k < (topicEmbedMatrix encode tax).length := by
        rw [htop]; exact hk
      rw [hrowi]
      exact getD_map_of_lt _ _ k hktop [] 0
    · intro k hk
      have hkrow : k < ((simMatrix embeddings
          (topicEmbedMatrix encode tax)).getD i []).length := by
        rw [hrowlen]; exact hk
      exact getD_le_argmaxIdx 0 _ k hkrow
    · intro k hk heq
      have hjk : argmaxIdx ((simMatrix embeddings
          (topicEmbedMatrix encode tax)).getD i []) ≤ k := by
        by_contra hlt
        push_neg at hlt
        have := getD_lt_of_lt_argmaxIdx 0
          ((simMatrix embeddings (topicEmbedMatrix encode tax)).getD i []) k hlt
        rw [heq] at this
        exact lt_irrefl _ this
      rcases Nat.lt_or_ge (argmaxIdx ((simMatrix embeddings
          (topicEmbedMatrix encode tax)).getD i [])) k with hjk' | hjk'
      · have hjs : argmaxIdx ((simMatrix embeddings
            (topicEmbedMatrix encode tax)).getD i [])
            < (sortedClusterIds tax).length := by
          rw [hsid_len]; exact hj
        have hks : k < (sortedClusterIds tax).length := by
          rw [hsid_len]; exact hk
        have hrel := @List.Sorted.rel_get_of_lt ℤ (fun i j => i ≤ j)
          (sortedClusterIds tax) hsorted ⟨_, hjs⟩ ⟨k, hks⟩ (by exact hjk')
        rw [List.getD_eq_getElem _ _ hjs, List.getD_eq_getElem _ _ hks]
        simpa using hrel
      · have heqk : argmaxIdx ((simMatrix embeddings
            (topicEmbedMatrix encode tax)).getD i []) = k :=
          le_antisymm hjk hjk'
        rw [heqk]

/-- A one-entry taxonomy and a constant embedding model. -/
def taxEx : List (ℤ × TopicInfo) := [(0, ⟨"economia", ["pil"]⟩)]

def encodeEx : String → List ℝ := fun _ => [1]

/-- C5 witness: the assignment contract at a one-speech, one-topic concrete
instance. -/
theorem assign_topics_spec_witness :
    taxEx ≠ []
    ∧ (assign_topics_by_semantics [[(1 : ℝ)]] encodeEx taxEx).2.length = 1 :=
  ⟨by simp [taxEx],
    (assign_topics_spec [[(1 : ℝ)]] encodeEx taxEx
      (assign_topics_by_semantics [[(1 : ℝ)]] encodeEx taxEx).1
      (assign_topics_by_semantics [[(1 : ℝ)]] encodeEx taxEx).2
      (by simp [taxEx]) rfl).1⟩

theorem zip_mem_of_mem {r : SpeechRow} (df : List SpeechRow)
    (emb : List (List ℝ)) (hlen : df.length = emb.length) (hr : r ∈ df) :
    ∃ e, (r, e) ∈ df.zip emb := by
  induction df generalizing emb with
  | nil => cases hr
  | cons hd t ih =>
    cases emb with
    | nil => simp at hlen
    | cons e es =>
      rcases List.mem_cons.mp hr with rfl | hr'
      · exact ⟨e, by rw [List.zip_cons_cons]; exact List.mem_cons_self _ _⟩
      · have hlen' : t.length = es.length := by simpa using hlen
        rcases ih es hlen' hr' with ⟨e', he'⟩
        exact ⟨e', by rw [List.zip_cons_cons]; exact List.mem_cons_of_mem _ he'⟩

/-- C4 (amended).  Parties labelled with the unknown/unassigned value are
excluded from centroid computation — no centroid is ever derived for them —
but their members are not excluded from scoring: whenever any centroid
exists, every speaker of the dataset (including one whose party is the
unknown label, whose own-group distance is then infinite and whose
conformity is 0) receives a conformity profile and a classification. -/
theorem unknown_group_scoring (df : List SpeechRow) (emb : List (List ℝ)) :
    (∀ pc ∈ compute_party_centroids df emb, pc.1 ≠ unknownGroup)
    ∧ ∀ sp ∈ df.map (fun r => r.deputy),
        df.length = emb.length →
        (compute_party_centroids df emb).isEmpty = false →
        ∃ pr ∈ compute_senator_conformity df emb, pr.speaker = sp := by
  constructor
  · intro pc hpc
    unfold compute_party_centroids at hpc
    rcases List.mem_filterMap.mp hpc with ⟨party, _, hf⟩
    by_cases hu : party = unknownGroup
    · rw [if_pos hu] at hf
      exact absurd hf (by simp)
    · rw [if_neg hu] at hf
      by_cases h0 : (((df.zip emb).filter
          (fun p => decide (p.1.group = party))).map Prod.snd).length = 0
      · rw [if_pos h0] at hf
        exact absurd hf (by simp)
      · rw [if_neg h0] at hf
        have := Option.some.inj hf
        rw [← this]
        exact hu
  · intro sp hsp hlen hne
    rcases List.mem_map.mp hsp with ⟨r, hrmem, hrsp⟩
    rcases zip_mem_of_mem df emb hlen hrmem with ⟨e, he⟩
    have hmemf : (r, e) ∈ (df.zip emb).filter
        (fun p => decide (p.1.deputy = sp)) :=
      List.mem_filter.mpr ⟨he, by simp [hrsp]⟩
    have hselne : (df.zip emb).filter (fun p => decide (p.1.deputy = sp)) ≠ [] :=
      List.ne_nil_of_mem hmemf
    rcases List.exists_cons_of_ne_nil hselne with ⟨s, t, hsel⟩
    have hprof : ∃ pr, speakerProfile df emb sp
        (compute_party_centroids df emb) = some pr ∧ pr.speaker = sp := by
      unfold speakerProfile
      rw [hsel]
      exact ⟨_, rfl, rfl⟩
    rcases hprof with ⟨pr, hpr, hsp'⟩
    refine ⟨pr, ?_, hsp'⟩
    unfold compute_senator_conformity
    rw [if_neg (by simp [hne])]
    exact List.mem_filterMap.mpr
      ⟨sp, (mem_firstUniques _).mpr (List.mem_map.mpr ⟨r, hrmem, hrsp⟩), hpr⟩

/-- Two speakers, one in a real party and one in the unknown group, with
coinciding one-dimensional embeddings. -/
def dfUnknown : List SpeechRow :=
  [⟨"alice", "P1", 0⟩, ⟨"bob", "Unknown Group", 0⟩]

def embUnknown : List (List ℝ) := [[0], [0]]

/-- C4 counterexample.  The speaker whose party is the unknown label does
receive a conformity profile (with a classification label), refuting the
claim that entities of the unknown group get no derived score. -/
theorem conformity_unknown_cex :
    ∃ pr ∈ compute_senator_conformity dfUnknown embUnknown,
      pr.party = unknownGroup := by
  have h : (compute_senator_conformity dfUnknown embUnknown).map
      (fun pr => pr.party) = ["P1", "Unknown Group"] := rfl
  have hm : unknownGroup ∈ (compute_senator_conformity dfUnknown embUnknown).map
      (fun pr => pr.party) := by
    rw [h]
    simp [unknownGroup]
  rcases List.mem_map.mp hm with ⟨pr, hpr, hpreq⟩
  exact ⟨pr, hpr, hpreq⟩

/-- C4 witness: the amended statement at the concrete dataset — centroids
exist, and the unknown-group member "bob" still appears among the scored
profiles. -/
theorem unknown_group_scoring_witness :
    "bob" ∈ dfUnknown.map (fun r => r.deputy)
    ∧ dfUnknown.length = embUnknown.length
    ∧ (compute_party_centroids dfUnknown embUnknown).isEmpty = false
    ∧ ∃ pr ∈ compute_senator_conformity dfUnknown embUnknown,
        pr.speaker = "bob" :=
  ⟨by simp [dfUnknown], rfl, rfl,
    (unknown_group_scoring dfUnknown embUnknown).2 "bob"
      (by simp [dfUnknown]) rfl rfl⟩

/-- C6: every profile produced by the conformity computation stores the
rounded scores of the raw bounded distances and carries the label computed
by the classification rule (conformity above 0.7 mainstream, else
cross-affinity above conformity bridge, else maverick) on those same raw
scores; in particular an entity at distance exactly 0 from its own group's
centroid has conformity `1/(1+0) = 1` and is labelled mainstream no matter
its cross-affinity. -/
theorem conformity_label_rule (df : List SpeechRow) (emb : List (List ℝ))
    (pr : ConformityProfile) (h : pr ∈ compute_senator_conformity df emb) :
    ∃ ownD nearD : Option ℝ,
      pr.conformity = round4 (invDist ownD)
      ∧ pr.cross_affinity = round4 (invDist nearD)
      ∧ pr.faction_label = classify (invDist ownD) (invDist nearD)
      ∧ (ownD = some 0 →
          invDist ownD = 1 ∧ pr.faction_label = "mainstream") := by
  unfold compute_senator_conformity at h
  by_cases hie : (compute_party_centroids df emb).isEmpty
  · rw [if_pos hie] at h
    exact absurd h (List.not_mem_nil pr)
  · rw [if_neg hie] at h
    rcases List.mem_filterMap.mp h with ⟨sp, _, hprof⟩
    unfold speakerProfile at hprof
    cases hsel : (df.zip emb).filter (fun p => decide (p.1.deputy = sp)) with
    | nil =>
      rw [hsel] at hprof
      exact absurd hprof (by simp)
    | cons s t =>
      rw [hsel] at hprof
      injection hprof with hpr
      refine ⟨ownDistanceOf (compute_party_centroids df emb) s.1.group
          (vecMean ((s :: t).map Prod.snd)),
        (nearestOf (compute_party_centroids df emb) s.1.group
          (vecMean ((s :: t).map Prod.snd))).2, ?_, ?_, ?_, ?_⟩
      · rw [← hpr]
      · rw [← hpr]
      · rw [← hpr]
      · intro h0
        constructor
        · rw [h0]
          norm_num [invDist]
        · rw [← hpr]
          show classify
            (invDist (ownDistanceOf (compute_party_centroids df emb) s.1.group
              (vecMean ((s :: t).map Prod.snd))))
            (invDist (nearestOf (compute_party_centroids df emb) s.1.group
              (vecMean ((s :: t).map Prod.snd))).2) = "mainstream"
          rw [h0]
          have h1 : invDist (some 0) = 1 := by norm_num [invDist]
          rw [h1]
          unfold classify
          rw [if_pos (by norm_num)]

/-- C6 witness: the label rule applied to the first profile of the concrete
two-speaker dataset. -/
theorem conformity_label_rule_witness :
    ∃ pr ∈ compute_senator_conformity dfUnknown embUnknown,
      ∃ ownD nearD : Option ℝ,
        pr.conformity = round4 (invDist ownD)
        ∧ pr.cross_affinity = round4 (invDist nearD)
        ∧ pr.faction_label = classify (invDist ownD) (invDist nearD)
        ∧ (ownD = some 0 →
            invDist ownD = 1 ∧ pr.faction_label = "mainstream") := by
  have hne : compute_senator_conformity dfUnknown embUnknown ≠ [] := by
    intro hemp
    have h2 : (compute_senator_conformity dfUnknown embUnknown).length = 2 := rfl
    rw [hemp] at h2
    simp at h2
  refine ⟨(compute_senator_conformity dfUnknown embUnknown).head hne,
    List.head_mem hne, ?_⟩
  exact conformity_label_rule dfUnknown embUnknown _ (List.head_mem hne)

theorem compute_cached_no_cache (a : Analyzer) (fs : FileSys)
    (ck : Option String) :
    (compute_cached a none fs ck).result
        = (match a.compute with
           | .ok r => .ok (some r)
           | .error e => .error e)
    ∧ (compute_cached a none fs ck).cache = none
    ∧ (compute_cached a none fs ck).fs = fs := by
  cases hc : a.compute <;> simp [compute_cached, hc]

/-- Unfolding of one `run_all` loop step. -/
theorem run_all_aux_cons (o : Orchestrator) (uc : Bool) (a : Analyzer)
    (rest : List Analyzer) (res : List (String × Option JValue))
    (c : Option CacheManager) (fs : FileSys) :
    run_all_aux o uc (a :: rest) res c fs =
      if skipsUnit o a then run_all_aux o uc rest res c fs
      else if uc then
        match (compute_cached a c fs none).result with
        | .ok v => run_all_aux o uc rest (aset a.name v res)
            (compute_cached a c fs none).cache (compute_cached a c fs none).fs
        | .error e =>
          run_all_aux o uc rest (aset a.name (some (errObj e)) res)
            (compute_cached a c fs none).cache (compute_cached a c fs none).fs
      else
        match a.compute with
        | .ok v => run_all_aux o uc rest (aset a.name (some v) res) c fs
        | .error e =>
          run_all_aux o uc rest (aset a.name (some (errObj e)) res) c fs := rfl

/-- Any loop suffix in which every unit carrying a given name is skipped
leaves that name's entry in the results dict untouched. -/
theorem run_all_aux_skipped (o : Orchestrator) (uc : Bool) :
    ∀ (pending : List Analyzer) (n : String),
      (∀ b ∈ pending, b.name = n → skipsUnit o b = true) →
      ∀ res c fs,
        alookup n (run_all_aux o uc pending res c fs).1 = alookup n res := by
  intro pending
  induction pending with
  | nil => intro n _ res c fs; rfl
  | cons b rest ih =>
    intro n h res c fs
    have hrest : ∀ x ∈ rest, x.name = n → skipsUnit o x = true :=
      fun x hx => h x (List.mem_cons_of_mem _ hx)
    rw [run_all_aux_cons]
    by_cases hbn : b.name = n
    · rw [if_pos (h b (List.mem_cons_self b rest) hbn)]
      exact ih n hrest res c fs
    · by_cases hskip : skipsUnit o b = true
      · rw [if_pos hskip]
        exact ih n hrest res c fs
      · rw [if_neg hskip]
        by_cases huc : uc = true
        · rw [if_pos huc]
          cases hres : (compute_cached b c fs none).result with
          | ok v =>
            rw [ih n hrest, alookup_aset_ne _ _ hbn]
          | error e =>
            rw [ih n hrest, alookup_aset_ne _ _ hbn]
        · rw [if_neg huc]
          cases hres : b.compute with
          | ok v =>
            rw [ih n hrest, alookup_aset_ne _ _ hbn]
          | error e =>
            rw [ih n hrest, alookup_aset_ne _ _ hbn]

/-- With no cache manager attached, a non-skipped unit of the pending list
whose name is unique there ends up in the results dict with its computed
value, or the error marker if its computation raised. -/
theorem run_all_aux_mem (o : Orchestrator) (uc : Bool) :
    ∀ (pending : List Analyzer) (a : Analyzer), a ∈ pending →
      (pending.map Analyzer.name).Nodup →
      skipsUnit o a = false →
      ∀ res fs,
        alookup a.name (run_all_aux o uc pending res none fs).1
          = some (match a.compute with
                  | .ok v => some v
                  | .error e => some (errObj e)) := by
  intro pending
  induction pending with
  | nil => intro a ha; exact absurd ha (List.not_mem_nil a)
  | cons b rest ih =>
    intro a ha hnd hsk res fs
    have hnd' : (rest.map Analyzer.name).Nodup := (List.nodup_cons.mp hnd).2
    rcases List.mem_cons.mp ha with rfl | ha'
    · -- the unit at the head of the list is executed now
      have hnotin : a.name ∉ rest.map Analyzer.name := (List.nodup_cons.mp hnd).1
      have hframe : ∀ x ∈ rest, x.name = a.name → skipsUnit o x = true := by
        intro x hx hxn
        exact absurd (List.mem_map.mpr ⟨x, hx, hxn⟩) hnotin
      rw [run_all_aux_cons, if_neg (by simp [hsk])]
      have hcc := compute_cached_no_cache a fs none
      by_cases huc : uc = true
      · rw [if_pos huc]
        cases hc : a.compute with
        | ok v =>
          rw [hcc.1, hc]
          rw [hcc.2.1, hcc.2.2]
          rw [run_all_aux_skipped o uc rest a.name hframe,
            alookup_aset_self]
        | error e =>
          rw [hcc.1, hc]
          rw [hcc.2.1, hcc.2.2]
          rw [run_all_aux_skipped o uc rest a.name hframe,
            alookup_aset_self]
      · rw [if_neg huc]
        cases hc : a.compute with
        | ok v =>
          exact (run_all_aux_skipped o uc rest a.name hframe
            (aset a.name (some v) res) none fs).trans
            (alookup_aset_self a.name (some v) res)
        | error e =>
          exact (run_all_aux_skipped o uc rest a.name hframe
            (aset a.name (some (errObj e)) res) none fs).trans
            (alookup_aset_self a.name (some (errObj e)) res)
    · -- the unit sits further down the list
      have hbn : b.name ≠ a.name := by
        intro he
        exact (List.nodup_cons.mp hnd).1
          (he ▸ List.mem_map.mpr ⟨a, ha', rfl⟩)
      rw [run_all_aux_cons]
      by_cases hskip : skipsUnit o b = true
      · rw [if_pos hskip]
        exact ih a ha' hnd' hsk res fs
      · rw [if_neg hskip]
        have hcc := compute_cached_no_cache b fs none
        by_cases huc : uc = true
        · rw [if_pos huc]
          cases hc : b.compute with
          | ok v =>
            rw [hcc.1, hc, hcc.2.1, hcc.2.2]
            exact ih a ha' hnd' hsk _ fs
          | error e =>
            rw [hcc.1, hc, hcc.2.1, hcc.2.2]
            exact ih a ha' hnd' hsk _ fs
        · rw [if_neg huc]
          cases hc : b.compute with
          | ok v => exact ih a ha' hnd' hsk _ fs
          | error e => exact ih a ha' hnd' hsk _ fs

theorem enabled_names_nodup {o : Orchestrator}
    (hnd : (o.registry.map Analyzer.name).Nodup) :
    ((get_enabled o.registry o.config).map Analyzer.name).Nodup :=
  ((List.filter_sublist o.registry).map Analyzer.name).nodup hnd

/-- C2: with no cache manager attached, every enabled unit whose pre-checked
dependencies are satisfiable lands in the `run_all` result under its name —
with the `{"error": str(e)}` marker if its computation raised, and with its
computed result otherwise.  In particular a raising unit never prevents the
other units from contributing their entries. -/
theorem run_all_error_isolation (o : Orchestrator) (fs : FileSys) (uc : Bool)
    (hnc : o.cache = none)
    (hnd : (o.registry.map Analyzer.name).Nodup)
    (a : Analyzer) (ha : a ∈ o.registry)
    (hen : is_enabled a.name o.config = true)
    (hsk : skipsUnit o a = false) :
    (∀ e, a.compute = .error e →
        alookup a.name (run_all o fs uc).1 = some (some (errObj e)))
    ∧ (∀ v, a.compute = .ok v →
        alookup a.name (run_all o fs uc).1 = some (some v)) := by
  have hmem : a ∈ get_enabled o.registry o.config :=
    List.mem_filter.mpr ⟨ha, hen⟩
  have base := run_all_aux_mem o uc _ a hmem (enabled_names_nodup hnd) hsk [] fs
  unfold run_all
  rw [hnc]
  constructor
  · intro e he
    rw [base, he]
  · intro v hv
    rw [base, hv]

/-- A unit whose computation always raises. -/
def badUnit : Analyzer := ⟨"identity", "1.0", [], .error "boom"⟩

/-- A unit whose computation succeeds with a result mapping. -/
def okUnit : Analyzer := ⟨"sentiment", "1.0", [], .ok (.obj [("score", .num 1)])⟩

def emptyFs : FileSys := ⟨[]⟩

/-- A cache-less orchestrator over a registry holding one raising and one
succeeding unit, with an empty configuration. -/
def twoUnitOrch : Orchestrator := ⟨[badUnit, okUnit], none, none, [], none⟩

/-- C2 witness: on the two-unit registry, the raising unit's entry is the
error marker and the succeeding unit's entry is its normal result. -/
theorem run_all_error_isolation_witness :
    alookup "identity" (run_all twoUnitOrch emptyFs true).1
        = some (some (errObj "boom"))
    ∧ alookup "sentiment" (run_all twoUnitOrch emptyFs true).1
        = some (some (.obj [("score", .num 1)])) :=
  ⟨(run_all_error_isolation twoUnitOrch emptyFs true rfl (by decide) badUnit
      (by simp [twoUnitOrch]) rfl rfl).1 "boom" rfl,
   (run_all_error_isolation twoUnitOrch emptyFs true rfl (by decide) okUnit
      (by simp [twoUnitOrch]) rfl rfl).2 (.obj [("score", .num 1)]) rfl⟩

/-- C3: an enabled unit declaring `embeddings` (resp. `cluster_centroids`)
among its dependencies, in an orchestrator constructed without an embedding
(resp. centroid) matrix, is absent from the `run_all` result: it is skipped,
not run and not recorded as an error. -/
theorem run_all_omits_missing_dependency (o : Orchestrator) (fs : FileSys)
    (uc : Bool) (hnd : (o.registry.map Analyzer.name).Nodup)
    (a : Analyzer) (ha : a ∈ o.registry)
    (hmiss : (a.deps.contains "embeddings" = true ∧ o.embeddings = none)
      ∨ (a.deps.contains "cluster_centroids" = true
          ∧ o.cluster_centroids = none)) :
    alookup a.name (run_all o fs uc).1 = none := by
  have hsk : skipsUnit o a = true := by
    rcases hmiss with ⟨h1, h2⟩ | ⟨h1, h2⟩
    · have h1' : "embeddings" ∈ a.deps := by simpa using h1
      simp [skipsUnit, h1', h2]
    · have h1' : "cluster_centroids" ∈ a.deps := by simpa using h1
      simp [skipsUnit, h1', h2]
  have hinj : ∀ b ∈ get_enabled o.registry o.config, b.name = a.name → b = a := by
    intro b hb hbn
    have hb' : b ∈ o.registry := (List.mem_filter.mp hb).1
    exact List.inj_on_of_nodup_map hnd hb' ha hbn
  have h := run_all_aux_skipped o uc (get_enabled o.registry o.config) a.name
    (fun b hb hbn => (hinj b hb hbn) ▸ hsk) [] o.cache fs
  unfold run_all
  rw [h]
  rfl

/-- A unit declaring the embedding matrix as a dependency. -/
def embUnit : Analyzer := ⟨"relations", "1.0", ["embeddings"], .ok .null⟩

/-- An orchestrator constructed without an embedding matrix, whose registry
holds the embedding-dependent unit and an independent one. -/
def noEmbOrch : Orchestrator := ⟨[embUnit, okUnit], none, none, [], none⟩

/-- C3 witness: the embedding-dependent unit is absent from the result of
`run_all` on the embedding-less orchestrator. -/
theorem run_all_omits_missing_dependency_witness :
    alookup "relations" (run_all noEmbOrch emptyFs true).1 = none :=
  run_all_omits_missing_dependency noEmbOrch emptyFs true (by decide) embUnit
    (by simp [noEmbOrch]) (Or.inl ⟨rfl, rfl⟩)

/-- C7 witness: the amended characterization applied at the concrete
slash-key cache state. -/
theorem invalidate_exact_witness :
    (slashMgr.invalidate slashFs (some "a/b")).1.memory
        = slashMgr.memory.filter (fun kv => !containsSub "a/b" kv.1)
    ∧ (slashMgr.persist = true →
        dirOf (slashMgr.invalidate slashFs (some "a/b")).2 slashMgr.source
          = (dirOf slashFs slashMgr.source).filter
              (fun f => !(diskGlobMatches "a/b" f.1
                && decide (f.1 ≠ "_metadata.json")))) :=
  ⟨(invalidate_exact slashMgr slashFs "a/b").1,
    (invalidate_exact slashMgr slashFs "a/b").2.1⟩

end PSA
